import Mathlib

/-!
Verification of the minimum-attack N-Queens binary integer program
(`src/main.py`).  The model-construction core is embedded shallowly:

* a `Constr` is one linear constraint the builder emits (the single
  placement-cardinality constraint, a two-term per-attacker constraint
  `y[i][j] >= x[k][l]`, or one aggregated big-M constraint);
* the constraint-building methods (`_add_rc_attack_constraints`,
  `_add_diag_attack_constraints`, `_add_constraints_disjunctive`,
  `_add_place_n_queens_constraint`) become functions from the board
  dimension to the list of constraints they add, in emission order;
* a 0/1 assignment to the two variable grids is a pair of functions
  `Nat → Nat → Bool`, and `Constr.sat` evaluates one constraint on it;
* `get_n` is embedded over the stream of parse results of input lines;
* the solver adapter (external) is modelled from its contract in the spec.
-/

/-- A cell index pair. -/
abbrev Cell := Nat × Nat

/-- One constraint emitted by the model builder.
`place n` is the cardinality constraint (the sum of every `x` variable
equals `n`); `atk i j k l` is the per-attacker constraint
`y[i][j] >= x[k][l]`; `disj i j m a` is the aggregated constraint
`m * y[i][j] >= sum of x[k][l] over the cells of a`. -/
inductive Constr where
  | place (n : Nat)
  | atk (i j k l : Nat)
  | disj (i j : Nat) (m : Nat) (a : List Cell)
  deriving DecidableEq

/-- The cells of the board, enumerated as the code's nested
`for i in range(n): for j in range(n)` loops do. -/
def cells (n : Nat) : List Cell :=
  (List.range n).flatMap fun i => (List.range n).map fun j => (i, j)

/-- Sum of a 0/1 grid over the whole board, as the `quicksum` calls
iterate it. -/
def grid_sum (n : Nat) (g : Nat → Nat → Bool) : Nat :=
  ((cells n).map fun p => (g p.1 p.2).toNat).sum

/-- Evaluate one constraint on a 0/1 assignment of the grids. -/
def Constr.sat (x y : Nat → Nat → Bool) : Constr → Bool
  | Constr.place n => decide (grid_sum n x = n)
  | Constr.atk i j k l => decide ((x k l).toNat ≤ (y i j).toNat)
  | Constr.disj i j m a =>
      decide ((a.map fun p => (x p.1 p.2).toNat).sum ≤ m * (y i j).toNat)

/-- A 0/1 assignment satisfies every constraint of a list. -/
def sat_all (cs : List Constr) (x y : Nat → Nat → Bool) : Bool :=
  cs.all fun c => Constr.sat x y c

/-- Does a constraint mention a `y` variable?  The placement constraint is
the only emitted constraint over the `x` grid alone. -/
def Constr.mentions_y : Constr → Bool
  | Constr.place _ => false
  | Constr.atk _ _ _ _ => true
  | Constr.disj _ _ _ _ => true

/-- `_add_place_n_queens_constraint`: the single cardinality constraint. -/
def place_n_queens_constraint (n : Nat) : List Constr :=
  [Constr.place n]

/-- `_add_rc_attack_constraints`: for every `i, j, k < n` the two
constraints `y[i][j] >= x[i][k]` and `y[i][j] >= x[k][j]`. -/
def rc_attack_constraints (n : Nat) : List Constr :=
  (List.range n).flatMap fun i =>
    (List.range n).flatMap fun j =>
      (List.range n).flatMap fun k =>
        [Constr.atk i j i k, Constr.atk i j k j]

/-- `_add_diag_attack_constraints`: for every `i, j, k, l < n`, a
constraint `y[i][j] >= x[k][l]` for each of the two diagonal-membership
tests `k - i == l - j` and `k - i == j - l` that holds (Python's `-` on
ints, hence the casts to `Int`). -/
def diag_attack_constraints (n : Nat) : List Constr :=
  (List.range n).flatMap fun i =>
    (List.range n).flatMap fun j =>
      (List.range n).flatMap fun k =>
        (List.range n).flatMap fun l =>
          (if (k : Int) - i = (l : Int) - j then [Constr.atk i j k l] else [])
            ++ (if (k : Int) - i = (j : Int) - l then [Constr.atk i j k l] else [])

/-- `_add_constraints`: the per-attacker strategy adds the placement
constraint, then the row/column constraints, then the diagonal ones. -/
def constraints (n : Nat) : List Constr :=
  place_n_queens_constraint n ++ (rc_attack_constraints n ++ diag_attack_constraints n)

/-- The local `row_set` of `_add_constraints_disjunctive`:
`[(i, l) for l in range(n) if l != j]`. -/
def row_set (n i j : Nat) : List Cell :=
  ((List.range n).filter fun l => l ≠ j).map fun l => (i, l)

/-- The local `column_set` of `_add_constraints_disjunctive`:
`[(k, j) for k in range(n) if k != i]`. -/
def column_set (n i j : Nat) : List Cell :=
  ((List.range n).filter fun k => k ≠ i).map fun k => (k, j)

/-- The diagonal loop of `_add_constraints_disjunctive`: every cell off
the row and column of `(i, j)` passing one of the two diagonal tests. -/
def diag_set (n i j : Nat) : List Cell :=
  (List.range n).flatMap fun k =>
    (List.range n).flatMap fun l =>
      if i = k ∨ j = l then []
      else if (k : Int) - i = (l : Int) - j ∨ (k : Int) - i = (j : Int) - l
        then [(k, l)] else []

/-- The attacker set built inside `_add_constraints_disjunctive` for cell
`(i, j)`: the cell itself, its row, its column, then the diagonal cells,
in the order the code extends the list. -/
def attacker_set (n i j : Nat) : List Cell :=
  [(i, j)] ++ row_set n i j ++ column_set n i j ++ diag_set n i j

/-- The loop of `_add_constraints_disjunctive`: one aggregated constraint
per cell, with big-M equal to the length of the attacker set it sums. -/
def disj_attack_constraints (n : Nat) : List Constr :=
  (List.range n).flatMap fun i =>
    (List.range n).map fun j =>
      Constr.disj i j (attacker_set n i j).length (attacker_set n i j)

/-- `_add_constraints_disjunctive`: placement constraint, then the
per-cell aggregated constraints. -/
def constraints_disjunctive (n : Nat) : List Constr :=
  place_n_queens_constraint n ++ disj_attack_constraints n

/-- The `NQueensBIP` object state the claims need: the dimension and the
encoding flag chosen at construction. -/
structure NQueensBIP where
  n_dim : Nat
  disjunctive : Bool
  deriving DecidableEq

/-- `NQueensBIP.__init__` with both arguments supplied. -/
def NQueensBIP.init (n_dim : Nat) (disjunctive : Bool) : NQueensBIP :=
  ⟨n_dim, disjunctive⟩

/-- `NQueensBIP.__init__` with the `disjunctive` argument omitted: the
Python default is `disjunctive=True`. -/
def NQueensBIP.init_default (n_dim : Nat) : NQueensBIP :=
  NQueensBIP.init n_dim true

/-- The branch of `configure_bip`: the constraint set the chosen strategy
emits. -/
def strategy_constraints (d : Bool) (n : Nat) : List Constr :=
  if d then constraints_disjunctive n else constraints n

/-- `configure_bip`: builds the model's constraints from the object's
flag and dimension. -/
def configure_bip (m : NQueensBIP) : List Constr :=
  strategy_constraints m.disjunctive m.n_dim

/-- The object `main` constructs: `NQueensBIP(n_dim, disjunctive=False)`. -/
def main_bip (n_dim : Nat) : NQueensBIP :=
  NQueensBIP.init n_dim false

/-- `_add_objective`: the minimized objective is the sum of every `y`
variable, i.e. `grid_sum` of the `y` grid. -/
def objective (n : Nat) (y : Nat → Nat → Bool) : Nat :=
  grid_sum n y

/-- `get_n`, over the stream of parse results of the input lines: a line
that fails `int(...)` is `none` and is skipped with a re-prompt; a parsed
value is re-prompted while it is `0` (the loop guard `n_dim == 0`) and
returned otherwise.  An exhausted stream returns `none`. -/
def get_n : List (Option Int) → Option Int
  | [] => none
  | some v :: rest => if v = 0 then get_n rest else some v
  | none :: rest => get_n rest

/-- The attacker relation the spec describes for cell `(i, j)`: same row,
same column, or one of the two diagonal directions (the code's tests,
over `Int`).  The cell itself satisfies it through `k = i`. -/
def attacks_rel (i j k l : Nat) : Prop :=
  k = i ∨ l = j ∨ (k : Int) - i = (l : Int) - j ∨ (k : Int) - i = (j : Int) - l

instance (i j k l : Nat) : Decidable (attacks_rel i j k l) := by
  unfold attacks_rel; infer_instance

/-- The relation claimed for the per-attacker strategy: a pair of
distinct cells sharing a row, a column or a diagonal. -/
def other_attacks_rel (i j k l : Nat) : Prop :=
  ¬ (k = i ∧ l = j) ∧ attacks_rel i j k l

instance (i j k l : Nat) : Decidable (other_attacks_rel i j k l) := by
  unfold other_attacks_rel; infer_instance

/-- Termination statuses of the solver adapter, from its contract. -/
inductive GStatus where
  | optimal
  | timeLimit
  | infeasible
  | noSolutionFound
  deriving DecidableEq

/-- Modelled from the spec: the result the external solver adapter hands
back after `optimize()`.  On `INFEASIBLE` or `NO_SOLUTION_FOUND` no
solution is available, so the objective value is absent; the optimality
gap is present only when an incumbent with a proven gap exists. -/
structure SolveResult where
  status : GStatus
  objValAttr : Option Int
  mipGapAttr : Option Int
  deriving DecidableEq

/-- Retrieving a model attribute that is unavailable fails. -/
inductive GurobiError where
  | unableToRetrieveObjVal
  | unableToRetrieveMipGap
  deriving DecidableEq

/-- The lines `NQueensBIP.solve` prints after `optimize()` returns. -/
inductive SolveMsg where
  | summary (n_dim : Nat) (objVal : Int)
  | solutionOptimal
  | optimalityGap (gap : Int)
  | noSolutionFound
  deriving DecidableEq

/-- `NQueensBIP.solve` after `optimize()`: it first prints the summary
line, which reads `self.model.ObjVal` unconditionally — modelled from the
spec's adapter contract, that read fails when no solution is available —
and only then branches on the status, printing "Solution is optimal.",
the optimality gap (read from `MIPGap`), or "No solution found.". -/
def solve_report (n_dim : Nat) (r : SolveResult) : Except GurobiError (List SolveMsg) :=
  match r.objValAttr with
  | none => Except.error GurobiError.unableToRetrieveObjVal
  | some obj =>
    match r.status with
    | GStatus.optimal => Except.ok [SolveMsg.summary n_dim obj, SolveMsg.solutionOptimal]
    | GStatus.timeLimit =>
        match r.mipGapAttr with
        | none => Except.error GurobiError.unableToRetrieveMipGap
        | some g => Except.ok [SolveMsg.summary n_dim obj, SolveMsg.optimalityGap g]
    | _ => Except.ok [SolveMsg.summary n_dim obj, SolveMsg.noSolutionFound]

lemma sat_all_iff {cs : List Constr} {x y : Nat → Nat → Bool} :
    sat_all cs x y = true ↔ ∀ c ∈ cs, Constr.sat x y c = true := by
  simp [sat_all, List.all_eq_true]

lemma sat_place_iff {n : Nat} {x y : Nat → Nat → Bool} :
    Constr.sat x y (Constr.place n) = true ↔ grid_sum n x = n := by
  simp [Constr.sat]

lemma sat_atk_iff {i j k l : Nat} {x y : Nat → Nat → Bool} :
    Constr.sat x y (Constr.atk i j k l) = true ↔ (x k l).toNat ≤ (y i j).toNat := by
  simp [Constr.sat]

lemma sat_disj_iff {i j m : Nat} {a : List Cell} {x y : Nat → Nat → Bool} :
    Constr.sat x y (Constr.disj i j m a) = true ↔
      (a.map fun p => (x p.1 p.2).toNat).sum ≤ m * (y i j).toNat := by
  simp [Constr.sat]

lemma mem_cells {n : Nat} {p : Cell} : p ∈ cells n ↔ p.1 < n ∧ p.2 < n := by
  obtain ⟨k, l⟩ := p
  simp only [cells, List.mem_flatMap, List.mem_map, List.mem_range, Prod.mk.injEq]
  constructor
  · rintro ⟨a, ha, b, hb, rfl, rfl⟩
    exact ⟨ha, hb⟩
  · rintro ⟨hk, hl⟩
    exact ⟨k, hk, l, hl, rfl, rfl⟩

lemma cells_nodup (n : Nat) : (cells n).Nodup := by
  rw [cells, List.nodup_flatMap]
  refine ⟨fun a _ => ?_, ?_⟩
  · exact (List.nodup_range n).map fun p q h => by simpa using h
  · refine List.Pairwise.imp ?_ (List.pairwise_lt_range n)
    intro a b hab
    intro p hp hq
    simp only [Function.onFun, List.mem_map] at hp hq
    obtain ⟨u, _, rfl⟩ := hp
    obtain ⟨v, _, h⟩ := hq
    exact absurd (congrArg Prod.fst h).symm (Nat.ne_of_lt hab)

lemma mem_row_set {n i j : Nat} {p : Cell} :
    p ∈ row_set n i j ↔ p.1 = i ∧ p.2 < n ∧ p.2 ≠ j := by
  obtain ⟨k, l⟩ := p
  simp only [row_set, List.mem_map, List.mem_filter, List.mem_range, Prod.mk.injEq,
    decide_eq_true_iff]
  constructor
  · rintro ⟨a, ⟨ha, hne⟩, rfl, rfl⟩
    exact ⟨rfl, ha, hne⟩
  · rintro ⟨rfl, hl, hne⟩
    exact ⟨l, ⟨hl, hne⟩, rfl, rfl⟩

lemma mem_column_set {n i j : Nat} {p : Cell} :
    p ∈ column_set n i j ↔ p.1 < n ∧ p.1 ≠ i ∧ p.2 = j := by
  obtain ⟨k, l⟩ := p
  simp only [column_set, List.mem_map, List.mem_filter, List.mem_range, Prod.mk.injEq,
    decide_eq_true_iff]
  constructor
  · rintro ⟨a, ⟨ha, hne⟩, rfl, rfl⟩
    exact ⟨ha, hne, rfl⟩
  · rintro ⟨hk, hne, rfl⟩
    exact ⟨k, ⟨hk, hne⟩, rfl, rfl⟩

lemma mem_diag_set {n i j : Nat} {p : Cell} :
    p ∈ diag_set n i j ↔
      p.1 < n ∧ p.2 < n ∧ ¬(i = p.1 ∨ j = p.2) ∧
        ((p.1 : Int) - i = (p.2 : Int) - j ∨ (p.1 : Int) - i = (j : Int) - p.2) := by
  obtain ⟨k, l⟩ := p
  simp only [diag_set, List.mem_flatMap, List.mem_range]
  constructor
  · rintro ⟨a, ha, b, hb, hmem⟩
    split_ifs at hmem with hc hd
    · exact absurd hmem (List.not_mem_nil _)
    · have h := List.mem_singleton.mp hmem
      rw [Prod.mk.injEq] at h
      obtain ⟨rfl, rfl⟩ := h
      exact ⟨ha, hb, hc, hd⟩
    · exact absurd hmem (List.not_mem_nil _)
  · rintro ⟨hk, hl, hcond, hdiag⟩
    refine ⟨k, hk, l, hl, ?_⟩
    rw [if_neg hcond, if_pos hdiag]
    exact List.mem_singleton.mpr rfl

lemma mem_attacker_set {n i j k l : Nat} (hi : i < n) (hj : j < n) :
    (k, l) ∈ attacker_set n i j ↔ (k < n ∧ l < n ∧ attacks_rel i j k l) := by
  simp only [attacker_set, List.mem_append, List.mem_singleton, Prod.mk.injEq,
    mem_row_set, mem_column_set, mem_diag_set, attacks_rel]
  omega

lemma row_set_nodup (n i j : Nat) : (row_set n i j).Nodup :=
  List.Nodup.map (fun a b h => by simpa using h) ((List.nodup_range n).filter _)

lemma column_set_nodup (n i j : Nat) : (column_set n i j).Nodup :=
  List.Nodup.map (fun a b h => by simpa using h) ((List.nodup_range n).filter _)

lemma diag_set_nodup (n i j : Nat) : (diag_set n i j).Nodup := by
  rw [diag_set, List.nodup_flatMap]
  refine ⟨fun a _ => ?_, ?_⟩
  · rw [List.nodup_flatMap]
    refine ⟨fun b _ => ?_, ?_⟩
    · split_ifs <;> simp
    · refine List.Pairwise.imp ?_ (List.pairwise_lt_range n)
      intro b c hbc p hp hq
      dsimp only at hp hq
      split_ifs at hp hq <;> simp_all
  · refine List.Pairwise.imp ?_ (List.pairwise_lt_range n)
    intro a b hab p hp hq
    simp only [List.mem_flatMap, List.mem_range] at hp hq
    obtain ⟨u, _, hpu⟩ := hp
    obtain ⟨v, _, hqv⟩ := hq
    split_ifs at hpu hqv <;> simp_all

lemma attacker_set_nodup (n i j : Nat) : (attacker_set n i j).Nodup := by
  rw [attacker_set]
  refine List.nodup_append.mpr ⟨?_, diag_set_nodup n i j, ?_⟩
  · refine List.nodup_append.mpr ⟨?_, column_set_nodup n i j, ?_⟩
    · refine List.nodup_append.mpr ⟨List.nodup_singleton _, row_set_nodup n i j, ?_⟩
      intro p hp hq
      rw [List.mem_singleton] at hp
      subst hp
      rw [mem_row_set] at hq
      exact hq.2.2 rfl
    · intro p hp hq
      rw [mem_column_set] at hq
      rcases List.mem_append.mp hp with hp | hp
      · rw [List.mem_singleton] at hp
        subst hp
        exact hq.2.1 rfl
      · rw [mem_row_set] at hp
        exact hq.2.1 hp.1
  · intro p hp hq
    rw [mem_diag_set] at hq
    refine hq.2.2.1 ?_
    rcases List.mem_append.mp hp with hp | hp
    · rcases List.mem_append.mp hp with hp | hp
      · rw [List.mem_singleton] at hp
        subst hp
        exact Or.inl rfl
      · rw [mem_row_set] at hp
        exact Or.inl hp.1.symm
    · rw [mem_column_set] at hp
      exact Or.inr hp.2.2.symm

lemma atk_mem_rc_iff {n i j k l : Nat} :
    Constr.atk i j k l ∈ rc_attack_constraints n ↔
      i < n ∧ j < n ∧ ((k = i ∧ l < n) ∨ (l = j ∧ k < n)) := by
  simp only [rc_attack_constraints, List.mem_flatMap, List.mem_range, List.mem_cons,
    List.mem_singleton, List.not_mem_nil, or_false, Constr.atk.injEq]
  constructor
  · rintro ⟨a, ha, b, hb, c, hc, ⟨rfl, rfl, rfl, rfl⟩ | ⟨rfl, rfl, rfl, rfl⟩⟩
    · exact ⟨ha, hb, Or.inl ⟨rfl, hc⟩⟩
    · exact ⟨ha, hb, Or.inr ⟨rfl, hc⟩⟩
  · rintro ⟨hi, hj, ⟨hki, hl⟩ | ⟨hlj, hk⟩⟩
    · exact ⟨i, hi, j, hj, l, hl, Or.inl ⟨rfl, rfl, hki, rfl⟩⟩
    · exact ⟨i, hi, j, hj, k, hk, Or.inr ⟨rfl, rfl, rfl, hlj⟩⟩

lemma atk_mem_diag_iff {n i j k l : Nat} :
    Constr.atk i j k l ∈ diag_attack_constraints n ↔
      i < n ∧ j < n ∧ k < n ∧ l < n ∧
        ((k : Int) - i = (l : Int) - j ∨ (k : Int) - i = (j : Int) - l) := by
  simp only [diag_attack_constraints, List.mem_flatMap, List.mem_range, List.mem_append,
    List.mem_ite_nil_right, List.mem_singleton, Constr.atk.injEq]
  constructor
  · rintro ⟨a, ha, b, hb, c, hc, d, hd, ⟨hdiag, rfl, rfl, rfl, rfl⟩ | ⟨hdiag, rfl, rfl, rfl, rfl⟩⟩
    · exact ⟨ha, hb, hc, hd, Or.inl hdiag⟩
    · exact ⟨ha, hb, hc, hd, Or.inr hdiag⟩
  · rintro ⟨hi, hj, hk, hl, hdiag | hdiag⟩
    · exact ⟨i, hi, j, hj, k, hk, l, hl, Or.inl ⟨hdiag, rfl, rfl, rfl, rfl⟩⟩
    · exact ⟨i, hi, j, hj, k, hk, l, hl, Or.inr ⟨hdiag, rfl, rfl, rfl, rfl⟩⟩

lemma per_attack_shape {n : Nat} {c : Constr}
    (h : c ∈ rc_attack_constraints n ++ diag_attack_constraints n) :
    ∃ i j k l, c = Constr.atk i j k l := by
  rcases List.mem_append.mp h with h | h
  · simp only [rc_attack_constraints, List.mem_flatMap, List.mem_range, List.mem_cons,
      List.mem_singleton, List.not_mem_nil, or_false] at h
    obtain ⟨a, _, b, _, d, _, rfl | rfl⟩ := h
    · exact ⟨a, b, a, d, rfl⟩
    · exact ⟨a, b, d, b, rfl⟩
  · simp only [diag_attack_constraints, List.mem_flatMap, List.mem_range, List.mem_append,
      List.mem_ite_nil_right, List.mem_singleton] at h
    obtain ⟨a, _, b, _, d, _, e, _, ⟨_, rfl⟩ | ⟨_, rfl⟩⟩ := h
    · exact ⟨a, b, d, e, rfl⟩
    · exact ⟨a, b, d, e, rfl⟩

lemma atk_mem_per_iff {n i j k l : Nat} :
    Constr.atk i j k l ∈ rc_attack_constraints n ++ diag_attack_constraints n ↔
      (i < n ∧ j < n ∧ k < n ∧ l < n ∧ attacks_rel i j k l) := by
  rw [List.mem_append, atk_mem_rc_iff, atk_mem_diag_iff, attacks_rel]
  omega

lemma sat_all_per_iff {n : Nat} {x y : Nat → Nat → Bool} :
    sat_all (constraints n) x y = true ↔
      (grid_sum n x = n ∧
        ∀ i j k l, i < n → j < n → k < n → l < n → attacks_rel i j k l →
          (x k l).toNat ≤ (y i j).toNat) := by
  rw [sat_all_iff]
  constructor
  · intro h
    refine ⟨?_, ?_⟩
    · exact sat_place_iff.mp (h (Constr.place n) (by simp [constraints, place_n_queens_constraint]))
    · intro i j k l hi hj hk hl hrel
      refine sat_atk_iff.mp (h (Constr.atk i j k l) ?_)
      rw [constraints]
      exact List.mem_append.mpr (Or.inr (atk_mem_per_iff.mpr ⟨hi, hj, hk, hl, hrel⟩))
  · rintro ⟨hplace, hatk⟩ c hc
    rw [constraints, place_n_queens_constraint] at hc
    rcases List.mem_append.mp hc with hc | hc
    · rw [List.mem_singleton] at hc
      subst hc
      exact sat_place_iff.mpr hplace
    · obtain ⟨i, j, k, l, rfl⟩ := per_attack_shape hc
      obtain ⟨hi, hj, hk, hl, hrel⟩ := atk_mem_per_iff.mp hc
      exact sat_atk_iff.mpr (hatk i j k l hi hj hk hl hrel)

lemma disj_mem_iff {n : Nat} {c : Constr} :
    c ∈ disj_attack_constraints n ↔
      ∃ i j, i < n ∧ j < n ∧
        c = Constr.disj i j (attacker_set n i j).length (attacker_set n i j) := by
  simp only [disj_attack_constraints, List.mem_flatMap, List.mem_map, List.mem_range]
  constructor
  · rintro ⟨a, ha, b, hb, rfl⟩
    exact ⟨a, b, ha, hb, rfl⟩
  · rintro ⟨a, b, ha, hb, rfl⟩
    exact ⟨a, ha, b, hb, rfl⟩

lemma sat_all_disj_iff {n : Nat} {x y : Nat → Nat → Bool} :
    sat_all (constraints_disjunctive n) x y = true ↔
      (grid_sum n x = n ∧
        ∀ i j, i < n → j < n →
          (((attacker_set n i j).map fun p => (x p.1 p.2).toNat).sum ≤
            (attacker_set n i j).length * (y i j).toNat)) := by
  rw [sat_all_iff]
  constructor
  · intro h
    refine ⟨?_, ?_⟩
    · exact sat_place_iff.mp
        (h (Constr.place n) (by simp [constraints_disjunctive, place_n_queens_constraint]))
    · intro i j hi hj
      refine sat_disj_iff.mp (h _ ?_)
      rw [constraints_disjunctive]
      exact List.mem_append.mpr (Or.inr (disj_mem_iff.mpr ⟨i, j, hi, hj, rfl⟩))
  · rintro ⟨hplace, hdisj⟩ c hc
    rw [constraints_disjunctive, place_n_queens_constraint] at hc
    rcases List.mem_append.mp hc with hc | hc
    · rw [List.mem_singleton] at hc
      subst hc
      exact sat_place_iff.mpr hplace
    · obtain ⟨i, j, hi, hj, rfl⟩ := disj_mem_iff.mp hc
      exact sat_disj_iff.mpr (hdisj i j hi hj)

lemma sum_toNat_le_length (a : List Cell) (x : Nat → Nat → Bool) :
    (a.map fun p => (x p.1 p.2).toNat).sum ≤ a.length := by
  induction a with
  | nil => simp
  | cons p t ih =>
    simp only [List.map_cons, List.sum_cons, List.length_cons]
    have := Bool.toNat_le (x p.1 p.2)
    omega

lemma big_m_iff (b : Bool) (a : List Cell) (x : Nat → Nat → Bool) :
    ((a.map fun p => (x p.1 p.2).toNat).sum ≤ a.length * b.toNat) ↔
      (∀ p ∈ a, (x p.1 p.2).toNat ≤ b.toNat) := by
  cases b
  · simp only [Bool.toNat_false, Nat.mul_zero, Nat.le_zero]
    rw [List.sum_eq_zero_iff]
    constructor
    · intro h p hp
      exact h _ (List.mem_map.mpr ⟨p, hp, rfl⟩)
    · intro h v hv
      obtain ⟨p, hp, rfl⟩ := List.mem_map.mp hv
      exact h p hp
  · simp only [Bool.toNat_true, Nat.mul_one]
    constructor
    · intro _ p _
      exact Bool.toNat_le _
    · intro _
      exact sum_toNat_le_length a x

lemma strategy_constraints_false (n : Nat) :
    strategy_constraints false n = constraints n := rfl

lemma strategy_constraints_true (n : Nat) :
    strategy_constraints true n = constraints_disjunctive n := rfl

lemma feasible_attack_le {n : Nat} {d : Bool} {x y : Nat → Nat → Bool}
    (h : sat_all (strategy_constraints d n) x y = true)
    {i j k l : Nat} (hi : i < n) (hj : j < n) (hk : k < n) (hl : l < n)
    (hrel : attacks_rel i j k l) :
    (x k l).toNat ≤ (y i j).toNat := by
  cases d
  · rw [strategy_constraints_false] at h
    exact (sat_all_per_iff.mp h).2 i j k l hi hj hk hl hrel
  · rw [strategy_constraints_true] at h
    have hd := (sat_all_disj_iff.mp h).2 i j hi hj
    exact (big_m_iff (y i j) (attacker_set n i j) x).mp hd (k, l)
      ((mem_attacker_set hi hj).mpr ⟨hk, hl, hrel⟩)

lemma feasible_place {n : Nat} {d : Bool} {x y : Nat → Nat → Bool}
    (h : sat_all (strategy_constraints d n) x y = true) :
    grid_sum n x = n := by
  cases d
  · rw [strategy_constraints_false] at h
    exact (sat_all_per_iff.mp h).1
  · rw [strategy_constraints_true] at h
    exact (sat_all_disj_iff.mp h).1

lemma feasible_objective_ge {n : Nat} {d : Bool} {x y : Nat → Nat → Bool}
    (h : sat_all (strategy_constraints d n) x y = true) :
    n ≤ objective n y := by
  have hx : grid_sum n x = n := feasible_place h
  have hmono : grid_sum n x ≤ grid_sum n y := by
    unfold grid_sum
    refine List.sum_le_sum ?_
    intro p hp
    obtain ⟨hp1, hp2⟩ := mem_cells.mp hp
    exact feasible_attack_le h hp1 hp2 hp1 hp2 (Or.inl rfl)
  rw [objective]
  omega

lemma toNat_le_toNat {a b : Bool} (h : a.toNat ≤ b.toNat) (ha : a = true) : b = true := by
  subst ha
  cases b
  · simp at h
  · rfl

lemma sat_all_per_iff_disj {n : Nat} {x y : Nat → Nat → Bool} :
    sat_all (constraints n) x y = true ↔
      sat_all (constraints_disjunctive n) x y = true := by
  rw [sat_all_per_iff, sat_all_disj_iff]
  constructor
  · rintro ⟨hp, h⟩
    refine ⟨hp, fun i j hi hj => ?_⟩
    refine (big_m_iff _ _ _).mpr ?_
    rintro ⟨k, l⟩ hkl
    obtain ⟨hk, hl, hrel⟩ := (mem_attacker_set hi hj).mp hkl
    exact h i j k l hi hj hk hl hrel
  · rintro ⟨hp, h⟩
    refine ⟨hp, fun i j k l hi hj hk hl hrel => ?_⟩
    exact (big_m_iff _ _ _).mp (h i j hi hj) (k, l)
      ((mem_attacker_set hi hj).mpr ⟨hk, hl, hrel⟩)

lemma get_n_ne_zero : ∀ (s : List (Option Int)) (v : Int), get_n s = some v → v ≠ 0
  | [], v, h => by simp [get_n] at h
  | none :: t, v, h => get_n_ne_zero t v (by simpa [get_n] using h)
  | some w :: t, v, h => by
      simp only [get_n] at h
      split_ifs at h with hw
      · exact get_n_ne_zero t v h
      · injection h with h
        subst h
        exact hw

lemma filter_not_mentions_rc (n : Nat) :
    (rc_attack_constraints n).filter (fun c => ! c.mentions_y) = [] := by
  rw [List.filter_eq_nil_iff]
  intro c hc
  obtain ⟨i, j, k, l, rfl⟩ := per_attack_shape (List.mem_append.mpr (Or.inl hc))
  simp [Constr.mentions_y]

lemma filter_not_mentions_diag (n : Nat) :
    (diag_attack_constraints n).filter (fun c => ! c.mentions_y) = [] := by
  rw [List.filter_eq_nil_iff]
  intro c hc
  obtain ⟨i, j, k, l, rfl⟩ := per_attack_shape (List.mem_append.mpr (Or.inr hc))
  simp [Constr.mentions_y]

lemma filter_not_mentions_disj (n : Nat) :
    (disj_attack_constraints n).filter (fun c => ! c.mentions_y) = [] := by
  rw [List.filter_eq_nil_iff]
  intro c hc
  obtain ⟨i, j, _, _, rfl⟩ := disj_mem_iff.mp hc
  simp [Constr.mentions_y]

lemma disj_attack_constraints_length (n : Nat) :
    (disj_attack_constraints n).length = n * n := by
  rw [disj_attack_constraints, List.length_flatMap]
  simp only [Function.comp_def, List.length_map, List.length_range]
  rw [List.map_const', List.sum_replicate, List.length_range, smul_eq_mul]

lemma disj_attack_constraints_nodup (n : Nat) :
    (disj_attack_constraints n).Nodup := by
  rw [disj_attack_constraints, List.nodup_flatMap]
  refine ⟨fun a _ => ?_, ?_⟩
  · refine List.Nodup.map ?_ (List.nodup_range n)
    intro p q h
    injection h with _ h2 _ _
  · refine List.Pairwise.imp ?_ (List.pairwise_lt_range n)
    intro a b hab p hp hq
    simp only [List.mem_map, List.mem_range] at hp hq
    obtain ⟨u, _, rfl⟩ := hp
    obtain ⟨v, _, hq⟩ := hq
    injection hq with h1 _ _ _
    omega

/-- C1: for every board dimension, a 0/1 assignment of the grids
satisfies the per-attacker constraint set iff it satisfies the
disjunctive one, so the two encodings have the same achievable objective
values and hence the same optimal objective value. -/
theorem encoding_equivalence (n : Nat) :
    (∀ x y : Nat → Nat → Bool,
        sat_all (constraints n) x y = true ↔
          sat_all (constraints_disjunctive n) x y = true) ∧
    {v : Nat | ∃ x y : Nat → Nat → Bool,
        sat_all (constraints n) x y = true ∧ objective n y = v} =
      {v : Nat | ∃ x y : Nat → Nat → Bool,
        sat_all (constraints_disjunctive n) x y = true ∧ objective n y = v} := by
  refine ⟨fun x y => sat_all_per_iff_disj, ?_⟩
  ext v
  simp only [Set.mem_setOf_eq]
  constructor
  · rintro ⟨x, y, h, rfl⟩
    exact ⟨x, y, sat_all_per_iff_disj.mp h, rfl⟩
  · rintro ⟨x, y, h, rfl⟩
    exact ⟨x, y, sat_all_per_iff_disj.mpr h, rfl⟩

/-- C2: under either strategy, any 0/1 assignment satisfying the built
constraint set satisfies the attack-linkage invariant: if a cell of the
attacker set of `(i, j)` — itself, its row, its column or one of its
diagonals — is occupied, then `y i j` is set. -/
theorem attack_linkage_invariant (n : Nat) (d : Bool) (x y : Nat → Nat → Bool)
    (i j k l : Nat) (hsat : sat_all (strategy_constraints d n) x y = true)
    (hi : i < n) (hj : j < n) (hk : k < n) (hl : l < n)
    (hrel : attacks_rel i j k l) (hx : x k l = true) : y i j = true :=
  toNat_le_toNat (feasible_attack_le hsat hi hj hk hl hrel) hx

theorem attack_linkage_invariant_witness :
    (fun _ _ => true : Nat → Nat → Bool) 0 0 = true :=
  attack_linkage_invariant 1 false (fun _ _ => true) (fun _ _ => true) 0 0 0 0
    (by decide) (by decide) (by decide) (by decide) (by decide) (by decide) rfl

/-- C3 as claimed is false on the code: for N = 1, under either strategy,
no 0/1 assignment satisfying the built constraints has objective value 0
— the placement constraint occupies the single cell and the self-attack
constraint forces it to be marked attacked. -/
theorem n_one_zero_objective_cex :
    (¬ ∃ x y : Nat → Nat → Bool,
        sat_all (constraints 1) x y = true ∧ grid_sum 1 x = 1 ∧ objective 1 y = 0) ∧
    (¬ ∃ x y : Nat → Nat → Bool,
        sat_all (constraints_disjunctive 1) x y = true ∧
          grid_sum 1 x = 1 ∧ objective 1 y = 0) := by
  constructor
  · rintro ⟨x, y, hsat, _, hobj⟩
    have h1 : sat_all (strategy_constraints false 1) x y = true := by
      rw [strategy_constraints_false]
      exact hsat
    have := feasible_objective_ge h1
    omega
  · rintro ⟨x, y, hsat, _, hobj⟩
    have h1 : sat_all (strategy_constraints true 1) x y = true := by
      rw [strategy_constraints_true]
      exact hsat
    have := feasible_objective_ge h1
    omega

/-- C3 amended: for N = 1 the built model's optimal objective value is 1
under either strategy: every feasible 0/1 assignment has objective at
least 1, and placing the queen on the single cell with it marked attacked
is feasible, with exactly one queen and objective exactly 1. -/
theorem n_one_objective_one :
    (∀ (d : Bool) (x y : Nat → Nat → Bool),
        sat_all (strategy_constraints d 1) x y = true → 1 ≤ objective 1 y) ∧
    (∀ d : Bool, ∃ x y : Nat → Nat → Bool,
        sat_all (strategy_constraints d 1) x y = true ∧
          grid_sum 1 x = 1 ∧ objective 1 y = 1) := by
  constructor
  · intro d x y h
    exact feasible_objective_ge h
  · intro d
    refine ⟨fun _ _ => true, fun _ _ => true, ?_, ?_, ?_⟩ <;> cases d <;> decide

/-- C4: under either strategy every 0/1 assignment feasible for the built
model has objective value at least N: each occupied cell is in its own
attacker set, so it is marked attacked, and the cardinality constraint
occupies exactly N cells. -/
theorem objective_at_least_n (n : Nat) (d : Bool) (x y : Nat → Nat → Bool)
    (hsat : sat_all (strategy_constraints d n) x y = true) : n ≤ objective n y :=
  feasible_objective_ge hsat

theorem objective_at_least_n_witness : 1 ≤ objective 1 (fun _ _ => true) :=
  objective_at_least_n 1 false (fun _ _ => true) (fun _ _ => true) (by decide)

/-- C5 as claimed is false on the code: `get_n` accepts a negative parsed
integer — the loop guard only re-prompts on 0 and on parse failures — so
the returned value is not always a positive integer. -/
theorem get_n_negative_passthrough :
    get_n [some (-3)] = some (-3) ∧ ¬ (1 : Int) ≤ -3 := by decide

/-- C5 amended: `get_n` recovers from non-integer input and from the
integer 0 by re-prompting, and any value it returns is a nonzero integer;
negative integers, however, are accepted and returned. -/
theorem get_n_returns_nonzero (s : List (Option Int)) (v : Int)
    (h : get_n s = some v) :
    v ≠ 0 ∧ get_n (none :: s) = get_n s ∧ get_n (some 0 :: s) = get_n s :=
  ⟨get_n_ne_zero s v h, rfl, by simp [get_n]⟩

theorem get_n_returns_nonzero_witness :
    (5 : Int) ≠ 0 ∧ get_n [none, some 5] = get_n [some 5] ∧
      get_n [some 0, some 5] = get_n [some 5] :=
  get_n_returns_nonzero [some 5] 5 (by decide)

/-- C6: the code contradicts the claim.  `solve` reads the model's
`ObjVal` attribute in its summary print before branching on the status;
per the solver contract no solution — hence no objective value — is
available on INFEASIBLE, so the read fails and `solve` raises instead of
completing with its "No solution found." message (which its final branch
would print only if the objective read had succeeded). -/
theorem solve_infeasible_raises :
    solve_report 2 ⟨GStatus.infeasible, none, none⟩ =
      Except.error GurobiError.unableToRetrieveObjVal ∧
    (∀ obj : Int, solve_report 2 ⟨GStatus.infeasible, some obj, none⟩ =
      Except.ok [SolveMsg.summary 2 obj, SolveMsg.noSolutionFound]) :=
  ⟨rfl, fun _ => rfl⟩

/-- C7 as claimed is false on the code: the per-attacker strategy also
emits the self-pair constraint `y[0][0] >= x[0][0]` on the 1×1 board, an
attack constraint for a pair of non-distinct cells, outside the claimed
relation over pairs of distinct cells. -/
theorem self_attack_constraint_cex :
    Constr.atk 0 0 0 0 ∈ constraints 1 ∧ ¬ other_attacks_rel 0 0 0 0 := by decide

/-- C7 amended: the per-attacker strategy adds `y[i][j] >= x[k][l]`
exactly for the in-range pairs of cells sharing a row, a column or a
diagonal, with the cell itself included (the row, column and diagonal
loops all hit `(k, l) = (i, j)`); no attack constraint is added for a
pair outside this reflexive attacker relation. -/
theorem per_attacker_constraints_char (n i j k l : Nat) :
    Constr.atk i j k l ∈ constraints n ↔
      (i < n ∧ j < n ∧ k < n ∧ l < n ∧ attacks_rel i j k l) := by
  rw [← atk_mem_per_iff (n := n), constraints, place_n_queens_constraint]
  simp [List.mem_append, List.mem_singleton]

/-- C8: the disjunctive strategy emits exactly N² attack constraints,
pairwise distinct, one per cell; the constraint of cell `(i, j)` carries
a big-M coefficient equal to the length of its attacker set, and that
set is duplicate-free and contains exactly the cell itself and its
in-range row, column and diagonal mates. -/
theorem disjunctive_strategy_char (n i j k l : Nat) (hi : i < n) (hj : j < n) :
    (disj_attack_constraints n).length = n * n ∧
    (disj_attack_constraints n).Nodup ∧
    Constr.disj i j (attacker_set n i j).length (attacker_set n i j) ∈
      disj_attack_constraints n ∧
    (attacker_set n i j).Nodup ∧
    ((k, l) ∈ attacker_set n i j ↔ (k < n ∧ l < n ∧ attacks_rel i j k l)) :=
  ⟨disj_attack_constraints_length n, disj_attack_constraints_nodup n,
    disj_mem_iff.mpr ⟨i, j, hi, hj, rfl⟩, attacker_set_nodup n i j,
    mem_attacker_set hi hj⟩

theorem disjunctive_strategy_char_witness :
    (disj_attack_constraints 2).length = 2 * 2 ∧
    (disj_attack_constraints 2).Nodup ∧
    Constr.disj 0 0 (attacker_set 2 0 0).length (attacker_set 2 0 0) ∈
      disj_attack_constraints 2 ∧
    (attacker_set 2 0 0).Nodup ∧
    ((1, 1) ∈ attacker_set 2 0 0 ↔ (1 < 2 ∧ 1 < 2 ∧ attacks_rel 0 0 1 1)) :=
  disjunctive_strategy_char 2 0 0 1 1 (by decide) (by decide)

/-- C9: under either strategy the built constraint list has exactly one
constraint over the x grid alone, the cardinality constraint forcing the
sum of all x variables to equal N; every other emitted constraint
mentions a y variable, so nothing else bounds per-row or per-column
queen counts. -/
theorem single_cardinality_constraint (n : Nat) (d : Bool) :
    (strategy_constraints d n).filter (fun c => ! c.mentions_y) = [Constr.place n] := by
  cases d
  · rw [strategy_constraints_false, constraints, place_n_queens_constraint,
      List.filter_append, List.filter_append, filter_not_mentions_rc,
      filter_not_mentions_diag]
    simp [Constr.mentions_y]
  · rw [strategy_constraints_true, constraints_disjunctive, place_n_queens_constraint,
      List.filter_append, filter_not_mentions_disj]
    simp [Constr.mentions_y]

/-- C10: constructing `NQueensBIP` without a strategy argument selects
the disjunctive encoding (the default of `__init__`), while the entry
point `main` passes `disjunctive=False`, so it builds the per-attacker
constraint set. -/
theorem default_strategy_and_main_override (n : Nat) :
    (NQueensBIP.init_default n).disjunctive = true ∧
    configure_bip (NQueensBIP.init_default n) = constraints_disjunctive n ∧
    (main_bip n).disjunctive = false ∧
    configure_bip (main_bip n) = constraints n :=
  ⟨rfl, rfl, rfl, rfl⟩
